import Mathlib

/-!
# Verification of the graph-viz platform's core graph engine

Shallow embedding of the core graph-transformation and incremental-view
logic of the `graph-viz-platform` repository:

* `addNodesToGraph` — the incremental merge of a fetched fragment into the
  current in-memory graph (`src/lib/store.ts`);
* `filterGraphByEntity`, `filterGraphByRelationship`,
  `findPathBetweenEntities` — the derived-view operations
  (`src/lib/queryProcessor.ts`);
* `findDescendantNodes`, `collapseNode` — descendant computation and
  collapse (`src/components/GraphVisualization/types.ts`);
* `transformNeo4jToGraph` — the result normalizer over Neo4j records
  (`src/lib/neo4jConnector.ts`).

JavaScript `Map`/`Set` values are modelled as Lean lists: membership tests
(`Set.has`, `Map.has`) become decidable list membership, `Set.add`/
`Array.push` become list extension.  Where only membership in a set is ever
observed, insertion order is not tracked.  Loops that JavaScript runs to
completion are given explicit fuel with a comment justifying the bound;
layout-only floating-point coordinate fields (`x`, `y`, `fx`, `fy`) are not
modelled.
-/

namespace GraphViz

/-- Canonical graph node (shared shape of `store.ts`, `queryProcessor.ts`
and `GraphVisualization/types.ts`).  Layout-only numeric fields are
omitted; `properties` payloads are carried opaquely as string key/value
pairs where they matter (normalizer inputs are modelled separately). -/
structure GraphNode where
  id : String
  label : String
  type : Option String := none
  color : Option String := none
  description : Option String := none
  synonyms : List String := []
  props : List (String × String) := []
  deriving DecidableEq, Repr

/-- A link endpoint as it exists at runtime: either a bare id string, or a
node object embedded in place of the id (the force-graph renderer replaces
ids by node references, which is why `store.ts` re-normalizes them). -/
inductive NodeRef where
  | str (s : String)
  | obj (node : GraphNode)
  deriving DecidableEq, Repr

/-- Link as stored in the interactive graph (`store.ts`, `types.ts`):
`source`/`target` may be ids or embedded objects, `label` is optional. -/
structure Link where
  source : NodeRef
  target : NodeRef
  label : Option String := none
  deriving DecidableEq, Repr

/-- The GraphView held by the zustand store (`store.ts` `GraphData`). -/
structure GraphData where
  nodes : List GraphNode
  links : List Link
  deriving DecidableEq, Repr

/-- Result of `normalizeLink` in `store.ts`: bare string endpoints and a
defaulted label. -/
structure NormLink where
  source : String
  target : String
  label : String
  deriving DecidableEq, Repr

/-- The id behind a link endpoint
(`typeof link.source === 'object' ? link.source.id : link.source`). -/
def refId : NodeRef → String
  | .str s => s
  | .obj n => n.id

/-- `normalizeLink` from `store.ts` (lines 79-89): extract bare ids and
default a missing label to the empty string (`link.label || ''`). -/
def normalizeLink (l : Link) : NormLink :=
  { source := refId l.source, target := refId l.target, label := l.label.getD "" }

/-- Lexicographic comparison of character lists by code unit, the order
JavaScript's default `Array.prototype.sort` applies to strings. -/
def lexLe : List Char → List Char → Bool
  | [], _ => true
  | _ :: _, [] => false
  | c :: cs, d :: ds =>
    if c < d then true
    else if d < c then false
    else lexLe cs ds

/-- String comparison used by `[a, b].sort()`. -/
def strLe (a b : String) : Bool := lexLe a.data b.data

/-- `[a, b].sort()` on two strings: the lexicographically smaller first. -/
def sortPair (a b : String) : String × String :=
  if strLe a b then (a, b) else (b, a)

/-- The direction-agnostic link key built in `store.ts` (lines 96-98):
sort the two endpoint ids, then form `` `${nodeA}-${nodeB}-${label}` ``. -/
def linkKey (l : NormLink) : String :=
  let p := sortPair l.source l.target
  p.1 ++ "-" ++ p.2 ++ "-" ++ l.label

/-- The ids of a node list. -/
def nodeIds (nodes : List GraphNode) : List String := nodes.map (·.id)

/-- `addNodesToGraph` from `store.ts` (lines 52-149), as a pure function of
the current store value and the incoming fragment:

* with no current graph the fragment is installed as-is;
* otherwise incoming nodes are kept only if their id is not already a
  current node id, the combined node-id set is recomputed, and each
  incoming link is kept only if (a) both normalized endpoints are in the
  combined id set and (b) its direction-agnostic `linkKey` does not occur
  among the *current* links' keys (the JS lookup `Map` is built from
  `currentData.links` only and is not extended inside the loop). -/
def addNodesToGraph (current : Option GraphData) (newData : GraphData) : GraphData :=
  match current with
  | none => newData
  | some currentData =>
    let existingNodeIds := nodeIds currentData.nodes
    let updatedNodes := currentData.nodes ++
      newData.nodes.filter (fun node => decide (node.id ∉ existingNodeIds))
    let allNodeIds := nodeIds updatedNodes
    let existingLinkKeys := currentData.links.map (fun l => linkKey (normalizeLink l))
    let newLinks := newData.links.filter (fun link =>
      let nl := normalizeLink link
      decide (nl.source ∈ allNodeIds) && decide (nl.target ∈ allNodeIds) &&
        decide (linkKey nl ∉ existingLinkKeys))
    { nodes := updatedNodes, links := currentData.links ++ newLinks }

/-- The direction-agnostic keys of a stored link list. -/
def linkKeys (links : List Link) : List String :=
  links.map (fun l => linkKey (normalizeLink l))

/-- Every stored link's normalized endpoints occur among the view's node
ids (the "no dangling edges" invariant on the store's graph). -/
def noDangling (g : GraphData) : Bool :=
  g.links.all (fun l =>
    decide ((normalizeLink l).source ∈ nodeIds g.nodes) &&
    decide ((normalizeLink l).target ∈ nodeIds g.nodes))

/-! ## Order lemmas for the direction-agnostic key -/

theorem lexLe_total (a b : List Char) : lexLe a b = true ∨ lexLe b a = true := by
  induction a generalizing b with
  | nil => left; rfl
  | cons c cs ih =>
    cases b with
    | nil => right; rfl
    | cons d ds =>
      by_cases h1 : c < d
      · left; simp [lexLe, h1]
      · by_cases h2 : d < c
        · right; simp [lexLe, h2]
        · have hcd : c = d := le_antisymm (not_lt.mp h2) (not_lt.mp h1)
          subst hcd
          rcases ih ds with h | h
          · left; simp [lexLe, h]
          · right; simp [lexLe, h]

theorem lexLe_antisymm {a b : List Char} (hab : lexLe a b = true)
    (hba : lexLe b a = true) : a = b := by
  induction a generalizing b with
  | nil => cases b with
    | nil => rfl
    | cons d ds => simp [lexLe] at hba
  | cons c cs ih =>
    cases b with
    | nil => simp [lexLe] at hab
    | cons d ds =>
      by_cases h1 : c < d
      · simp [lexLe, h1, asymm h1] at hba
      · by_cases h2 : d < c
        · simp [lexLe, h1, h2] at hab
        · have hcd : c = d := le_antisymm (not_lt.mp h2) (not_lt.mp h1)
          subst hcd
          simp only [lexLe, if_neg h1, if_neg h2] at hab hba
          exact congrArg (c :: ·) (ih hab hba)

theorem strLe_total (a b : String) : strLe a b = true ∨ strLe b a = true :=
  lexLe_total a.data b.data

theorem strLe_antisymm {a b : String} (hab : strLe a b = true)
    (hba : strLe b a = true) : a = b := by
  cases a; cases b
  exact congrArg String.mk (lexLe_antisymm hab hba)

theorem sortPair_comm (a b : String) : sortPair a b = sortPair b a := by
  unfold sortPair
  by_cases hab : strLe a b = true
  · by_cases hba : strLe b a = true
    · have : a = b := strLe_antisymm hab hba
      subst this; rfl
    · simp [hab, hba]
  · rcases strLe_total a b with h | h
    · exact absurd h hab
    · simp [hab, h]

/-- The direction-agnostic key is invariant under swapping the endpoints. -/
theorem linkKey_symm (a b lbl : String) :
    linkKey ⟨a, b, lbl⟩ = linkKey ⟨b, a, lbl⟩ := by
  unfold linkKey
  rw [sortPair_comm]

/-! ## The merge engine, unfolded -/

/-- The `some` branch of `addNodesToGraph`, written out. -/
theorem addNodesToGraph_some (G F : GraphData) :
    addNodesToGraph (some G) F =
      { nodes := G.nodes ++
          F.nodes.filter (fun node => decide (node.id ∉ nodeIds G.nodes)),
        links := G.links ++ F.links.filter (fun link =>
          let nl := normalizeLink link
          decide (nl.source ∈ nodeIds (G.nodes ++
            F.nodes.filter (fun node => decide (node.id ∉ nodeIds G.nodes)))) &&
          decide (nl.target ∈ nodeIds (G.nodes ++
            F.nodes.filter (fun node => decide (node.id ∉ nodeIds G.nodes)))) &&
          decide (linkKey nl ∉ linkKeys G.links)) } := rfl

/-- After a merge, every fragment node's id is present in the result: either
it was already a current id, or the node itself was accepted. -/
theorem merge_mem_nodeIds (G F : GraphData) {n : GraphNode} (hn : n ∈ F.nodes) :
    n.id ∈ nodeIds (addNodesToGraph (some G) F).nodes := by
  rw [addNodesToGraph_some]
  simp only [nodeIds, List.map_append, List.mem_append]
  by_cases h : n.id ∈ nodeIds G.nodes
  · left; exact h
  · right
    refine List.mem_map.mpr ⟨n, ?_, rfl⟩
    exact List.mem_filter.mpr ⟨hn, decide_eq_true h⟩

/-- After a merge, every fragment link whose normalized endpoints are in the
result's id set has its direction-agnostic key among the result's keys:
either the key already occurred in the current links, or the link itself was
accepted. -/
theorem merge_key_mem_linkKeys (G F : GraphData) {l : Link} (hl : l ∈ F.links)
    (hs : (normalizeLink l).source ∈ nodeIds (addNodesToGraph (some G) F).nodes)
    (ht : (normalizeLink l).target ∈ nodeIds (addNodesToGraph (some G) F).nodes) :
    linkKey (normalizeLink l) ∈ linkKeys (addNodesToGraph (some G) F).links := by
  rw [addNodesToGraph_some] at *
  simp only [linkKeys, List.map_append, List.mem_append]
  by_cases h : linkKey (normalizeLink l) ∈ linkKeys G.links
  · left; simpa [linkKeys] using h
  · right
    refine List.mem_map.mpr ⟨l, ?_, rfl⟩
    refine List.mem_filter.mpr ⟨hl, ?_⟩
    simp only [Bool.and_eq_true, decide_eq_true_eq]
    refine ⟨⟨by simpa [nodeIds] using hs, by simpa [nodeIds] using ht⟩, ?_⟩
    simpa [linkKeys] using h

/-- C2 (confirmed): the merge is idempotent — merging the same fragment a
second time changes nothing (the node and link lists are equal outright,
hence equal as sets). -/
theorem c2_merge_idempotent (G F : GraphData) :
    addNodesToGraph (some (addNodesToGraph (some G) F)) F =
      addNodesToGraph (some G) F := by
  rw [addNodesToGraph_some (addNodesToGraph (some G) F) F]
  have hnodes : F.nodes.filter
      (fun node => decide (node.id ∉ nodeIds (addNodesToGraph (some G) F).nodes)) = [] := by
    rw [List.filter_eq_nil_iff]
    intro n hn
    simp only [decide_eq_true_eq, Decidable.not_not]
    exact merge_mem_nodeIds G F hn
  rw [hnodes]
  have hlinks : F.links.filter (fun link =>
      let nl := normalizeLink link
      decide (nl.source ∈ nodeIds ((addNodesToGraph (some G) F).nodes ++ [])) &&
      decide (nl.target ∈ nodeIds ((addNodesToGraph (some G) F).nodes ++ [])) &&
      decide (linkKey nl ∉ linkKeys (addNodesToGraph (some G) F).links)) = [] := by
    rw [List.filter_eq_nil_iff]
    intro l hl
    simp only [List.append_nil, Bool.and_eq_true, decide_eq_true_eq, not_and, not_not]
    intro hst
    exact merge_key_mem_linkKeys G F hl hst.1 hst.2
  rw [hlinks]
  simp

/-! ## Duplicate admission through the merge (C1) -/

/-- A current graph holding the single node `a`. -/
def dupCurrent : GraphData := { nodes := [{ id := "a", label := "A" }], links := [] }

/-- A fragment that internally repeats the node id `b` and carries the same
logical edge `a—b (X)` twice (once per direction). -/
def dupFragment : GraphData :=
  { nodes := [{ id := "b", label := "B" }, { id := "b", label := "B2" }],
    links := [{ source := .str "a", target := .str "b", label := some "X" },
              { source := .str "b", target := .str "a", label := some "X" }] }

/-- C1 (counterexample): a fragment that internally repeats a node id and an
edge *does* introduce duplicates — the merged view has two nodes with id
`b` and two links with the same direction-agnostic key, because the merge
tests incoming nodes and links only against the current graph, never
against already-accepted incoming entries. -/
theorem c1_counterexample :
    ¬ ((nodeIds (addNodesToGraph (some dupCurrent) dupFragment).nodes).Nodup ∧
       (linkKeys (addNodesToGraph (some dupCurrent) dupFragment).links).Nodup) := by
  decide

/-- C1 (amended): the merge deduplicates incoming nodes by id and incoming
links by direction-agnostic key against the current graph only; therefore,
provided the current view and the incoming fragment are each internally
duplicate-free, the merged view has no duplicate node ids and no duplicate
edge keys. -/
theorem c1_merge_dedup_amended (G F : GraphData)
    (hGn : (nodeIds G.nodes).Nodup) (hGl : (linkKeys G.links).Nodup)
    (hFn : (nodeIds F.nodes).Nodup) (hFl : (linkKeys F.links).Nodup) :
    (nodeIds (addNodesToGraph (some G) F).nodes).Nodup ∧
    (linkKeys (addNodesToGraph (some G) F).links).Nodup := by
  rw [addNodesToGraph_some]
  constructor
  · simp only [nodeIds, List.map_append]
    rw [List.nodup_append]
    refine ⟨hGn, hFn.sublist (F.nodes.filter_sublist.map _), ?_⟩
    intro x hxG hxF
    rcases List.mem_map.mp hxF with ⟨n, hnf, rfl⟩
    rcases List.mem_filter.mp hnf with ⟨-, hpred⟩
    exact (of_decide_eq_true hpred) hxG
  · simp only [linkKeys, List.map_append]
    rw [List.nodup_append]
    refine ⟨hGl, hFl.sublist (F.links.filter_sublist.map _), ?_⟩
    intro k hkG hkF
    rcases List.mem_map.mp hkF with ⟨l, hlf, rfl⟩
    rcases List.mem_filter.mp hlf with ⟨-, hpred⟩
    simp only [Bool.and_eq_true, decide_eq_true_eq] at hpred
    exact hpred.2 hkG

/-- C1 amended, instantiated: a duplicate-free current graph and fragment
merge to a duplicate-free view. -/
theorem c1_merge_dedup_amended_witness :
    (nodeIds dupCurrent.nodes).Nodup ∧ (linkKeys dupCurrent.links).Nodup ∧
    (nodeIds ({ nodes := [{ id := "b", label := "B" }],
                links := [{ source := .str "a", target := .str "b",
                            label := some "X" }] } : GraphData).nodes).Nodup ∧
    ((nodeIds (addNodesToGraph (some dupCurrent)
        { nodes := [{ id := "b", label := "B" }],
          links := [{ source := .str "a", target := .str "b",
                      label := some "X" }] }).nodes).Nodup ∧
     (linkKeys (addNodesToGraph (some dupCurrent)
        { nodes := [{ id := "b", label := "B" }],
          links := [{ source := .str "a", target := .str "b",
                      label := some "X" }] }).links).Nodup) :=
  ⟨by decide, by decide, by decide,
    c1_merge_dedup_amended _ _ (by decide) (by decide) (by decide) (by decide)⟩

/-! ## Direction-agnostic deduplication (C3) -/

/-- C3 (confirmed): merging a fragment whose only link is `(a, b, lbl)` into
a graph that already contains the same logical edge in the opposite
direction `(b, a, lbl)` adds no new link: the direction-agnostic key sorts
the endpoint pair, so both directions produce the same key. -/
theorem c3_direction_agnostic_dedup (G : GraphData) (ns : List GraphNode)
    (a b lbl : String)
    (h : (⟨b, a, lbl⟩ : NormLink) ∈ G.links.map normalizeLink) :
    (addNodesToGraph (some G)
      { nodes := ns,
        links := [{ source := .str a, target := .str b, label := some lbl }] }).links
      = G.links := by
  rw [addNodesToGraph_some]
  have hkey : linkKey (normalizeLink
      { source := .str a, target := .str b, label := some lbl }) ∈ linkKeys G.links := by
    have : linkKey (normalizeLink
        { source := .str a, target := .str b, label := some lbl })
        = linkKey ⟨b, a, lbl⟩ := linkKey_symm a b lbl
    rw [show normalizeLink { source := .str a, target := .str b, label := some lbl }
          = (⟨a, b, lbl⟩ : NormLink) from rfl] at this ⊢
    rw [this]
    rcases List.mem_map.mp h with ⟨l, hlG, hnl⟩
    exact List.mem_map.mpr ⟨l, hlG, by rw [hnl]⟩
  have : (List.filter (fun link =>
      let nl := normalizeLink link
      decide (nl.source ∈ nodeIds (G.nodes ++
        List.filter (fun node => decide (node.id ∉ nodeIds G.nodes)) ns)) &&
      decide (nl.target ∈ nodeIds (G.nodes ++
        List.filter (fun node => decide (node.id ∉ nodeIds G.nodes)) ns)) &&
      decide (linkKey nl ∉ linkKeys G.links))
      [{ source := .str a, target := .str b, label := some lbl }]) = [] := by
    rw [List.filter_eq_nil_iff]
    intro l hl
    rcases List.mem_singleton.mp hl with rfl
    simp only [Bool.and_eq_true, decide_eq_true_eq, not_and, not_not]
    intro _
    exact hkey
  simp only [this, List.append_nil]

/-- C3 instantiated: the reversed edge is dropped on a concrete graph. -/
theorem c3_direction_agnostic_dedup_witness :
    ((⟨"b", "a", "X"⟩ : NormLink) ∈
      ({ nodes := [{ id := "a", label := "A" }, { id := "b", label := "B" }],
         links := [{ source := .str "b", target := .str "a", label := some "X" }] }
        : GraphData).links.map normalizeLink) ∧
    (addNodesToGraph (some
      { nodes := [{ id := "a", label := "A" }, { id := "b", label := "B" }],
        links := [{ source := .str "b", target := .str "a", label := some "X" }] })
      { nodes := [],
        links := [{ source := .str "a", target := .str "b", label := some "X" }] }).links
      = ({ nodes := [{ id := "a", label := "A" }, { id := "b", label := "B" }],
           links := [{ source := .str "b", target := .str "a", label := some "X" }] }
          : GraphData).links :=
  ⟨by decide, c3_direction_agnostic_dedup _ [] "a" "b" "X" (by decide)⟩

/-! ## Subgraph view operations (`src/lib/queryProcessor.ts`) -/

/-- Link as used by `queryProcessor.ts`: endpoints are bare id strings. -/
structure SLink where
  source : String
  target : String
  label : Option String := none
  deriving DecidableEq, Repr

/-- GraphView shape used by `queryProcessor.ts`. -/
structure QPGraphData where
  nodes : List GraphNode
  links : List SLink
  deriving DecidableEq, Repr

/-- Every link's endpoints occur among the view's node ids ("no dangling
edges") for the queryProcessor's graph shape. -/
def qpNoDangling (g : QPGraphData) : Bool :=
  g.links.all (fun l =>
    decide (l.source ∈ nodeIds g.nodes) && decide (l.target ∈ nodeIds g.nodes))

/-- The id connected to `currentNodeId` through `link`, if any
(the `connectedNodeId` computation of `filterGraphByEntity`). -/
def connectedId (currentNodeId : String) (link : SLink) : Option String :=
  if link.source = currentNodeId then some link.target
  else if link.target = currentNodeId then some link.source
  else none

/-- One iteration of the inner `for (const link of graphData.links)` loop
of `filterGraphByEntity` for one expanded node: discover an unseen
neighbor (record it, enqueue it one hop further, keep the discovery link),
or keep a cross-link between two already-included nodes unless an
endpoint-equal link (either orientation, label ignored) was already kept.
An empty-string connected id is falsy in JavaScript and falls through both
branches.  State: (includedNodeIds, queue, includedLinks). -/
def scanStep (currentNodeId : String) (dist : Nat)
    (st : List String × List (String × Nat) × List SLink) (link : SLink) :
    List String × List (String × Nat) × List SLink :=
  match connectedId currentNodeId link with
  | none => st
  | some cid =>
    if cid = "" then st
    else if cid ∉ st.1 then
      (cid :: st.1, st.2.1 ++ [(cid, dist + 1)], st.2.2 ++ [link])
    else if st.2.2.any (fun l =>
        (decide (l.source = link.source) && decide (l.target = link.target)) ||
        (decide (l.source = link.target) && decide (l.target = link.source))) then
      st
    else
      (st.1, st.2.1, st.2.2 ++ [link])

/-- The `while (nodesToProcess.length > 0)` BFS loop of
`filterGraphByEntity`.  A popped node is only expanded (its links scanned)
when its distance is strictly below `maxDistance`.  Fuel bounds the number
of iterations; each iteration pops one queue entry and at most
`1 + 2 * links.length` entries are ever enqueued (the center plus one per
newly discovered endpoint id), so fuel `2 * links.length + 2` is never
exhausted. -/
def bfeLoop (links : List SLink) (maxDistance : Nat) :
    Nat → List (String × Nat) → List String → List SLink →
    List String × List SLink
  | 0, _, inc, incL => (inc, incL)
  | _ + 1, [], inc, incL => (inc, incL)
  | fuel + 1, (curr, dist) :: rest, inc, incL =>
    if dist < maxDistance then
      let st := links.foldl (scanStep curr dist) (inc, rest, incL)
      bfeLoop links maxDistance fuel st.2.1 st.1 st.2.2
    else
      bfeLoop links maxDistance fuel rest inc incL

/-- `filterGraphByEntity` from `queryProcessor.ts` (lines 103-147):
bounded-radius BFS neighborhood around `centralNodeId`. -/
def filterGraphByEntity (graphData : QPGraphData) (centralNodeId : String)
    (maxDistance : Nat := 1) : QPGraphData :=
  let st := bfeLoop graphData.links maxDistance (2 * graphData.links.length + 2)
    [(centralNodeId, 0)] [centralNodeId] []
  { nodes := graphData.nodes.filter (fun node => decide (node.id ∈ st.1)),
    links := st.2 }

/-- `filterGraphByRelationship` from `queryProcessor.ts` (lines 150-171):
keep links whose label equals the given type (and touching the entity, if
one is given; an empty-string entity id is falsy in JavaScript and
disables the entity restriction); nodes are the endpoints of kept links. -/
def filterGraphByRelationship (graphData : QPGraphData) (relationshipType : String)
    (entityId : Option String := none) : QPGraphData :=
  let includedLinks := graphData.links.filter (fun link =>
    decide (link.label = some relationshipType) &&
    (match entityId with
     | none => true
     | some e =>
       decide (e = "") || decide (link.source = e) || decide (link.target = e)))
  let includedNodeIds := includedLinks.flatMap (fun l => [l.source, l.target])
  { nodes := graphData.nodes.filter (fun node => decide (node.id ∈ includedNodeIds)),
    links := includedLinks }

/-- Append `v` to the adjacency bucket of `k`, creating the bucket at the
end when absent (the `Map` set/push steps of `findPathBetweenEntities`). -/
def addAdj : List (String × List String) → String → String →
    List (String × List String)
  | [], k, v => [(k, [v])]
  | (k', vs) :: rest, k, v =>
    if k' = k then (k', vs ++ [v]) :: rest else (k', vs) :: addAdj rest k v

/-- Build the undirected adjacency list of `findPathBetweenEntities`: each
link contributes its target to its source's bucket and vice versa, in link
order. -/
def buildAdjacency (links : List SLink) : List (String × List String) :=
  links.foldl (fun m l => addAdj (addAdj m l.source l.target) l.target l.source) []

/-- Bucket lookup (`adjacencyList.get(x) || []`). -/
def getAdj (m : List (String × List String)) (k : String) : List String :=
  match m.find? (fun kv => decide (kv.1 = k)) with
  | some kv => kv.2
  | none => []

/-- The `while (queue.length > 0)` BFS loop of `findPathBetweenEntities`:
pop a path, stop when its last node is the target, otherwise enqueue one
extension per unvisited neighbor (marking it visited at enqueue time).
Fuel bounds loop iterations: each pops one path and at most
`1 + 2 * links.length` paths are ever enqueued (the initial path plus one
per first visit of an endpoint id), so fuel `2 * links.length + 2` is never
exhausted; the fuel-exhausted value coincides with the no-path value. -/
def bfsLoop (adj : List (String × List String)) (targetId : String) :
    Nat → List (List String) → List String → Option (List String)
  | 0, _, _ => none
  | _ + 1, [], _ => none
  | fuel + 1, path :: queue, visited =>
    let currentNode := path.getLastD ""
    if currentNode = targetId then some path
    else
      let st := (getAdj adj currentNode).foldl
        (fun (st : List (List String) × List String) neighbor =>
          if neighbor ∈ st.2 then st
          else (st.1 ++ [path ++ [neighbor]], neighbor :: st.2))
        (queue, visited)
      bfsLoop adj targetId fuel st.1 st.2

/-- For each consecutive pair of the found path, the first stored link
connecting the pair in either direction (the path-reconstruction loop of
`findPathBetweenEntities`). -/
def pathLinks (links : List SLink) : List String → List SLink
  | a :: b :: rest =>
    (match links.find? (fun l =>
        (decide (l.source = a) && decide (l.target = b)) ||
        (decide (l.source = b) && decide (l.target = a))) with
     | some l => [l]
     | none => []) ++ pathLinks links (b :: rest)
  | _ => []

/-- `findPathBetweenEntities` from `queryProcessor.ts` (lines 174-244):
shortest path by BFS over the undirected adjacency projection; on success
the view holds the path's nodes and reconstructed links, otherwise just
the two endpoint nodes and no links. -/
def findPathBetweenEntities (graphData : QPGraphData)
    (sourceId targetId : String) : QPGraphData :=
  let adj := buildAdjacency graphData.links
  match bfsLoop adj targetId (2 * graphData.links.length + 2) [[sourceId]] [sourceId] with
  | some path =>
    { nodes := graphData.nodes.filter (fun node => decide (node.id ∈ path)),
      links := pathLinks graphData.links path }
  | none =>
    { nodes := graphData.nodes.filter (fun node =>
        decide (node.id = sourceId) || decide (node.id = targetId)),
      links := [] }

/-! ## Neighborhood extraction (C5) -/

/-- A node carrying only an id (label equal to the id), for concrete
views. -/
def sampleNode (i : String) : GraphNode := { id := i, label := i }

/-- The triangle `A—B`, `B—C`, `A—C` used by the neighborhood claims. -/
def triangleGraph : QPGraphData :=
  { nodes := [sampleNode "A", sampleNode "B", sampleNode "C"],
    links := [{ source := "A", target := "B", label := some "X" },
              { source := "B", target := "C", label := some "X" },
              { source := "A", target := "C", label := some "X" }] }

/-- C5 (counterexample): the radius-1 neighborhood of `A` in the triangle
does *not* return all three links — the cross-link `B—C` between the two
hop-1 nodes is missing, because links are only scanned from nodes whose
distance is strictly below the radius, and at radius 1 the hop-1 nodes are
never expanded. -/
theorem c5_counterexample :
    ({ source := "B", target := "C", label := some "X" } : SLink)
      ∉ (filterGraphByEntity triangleGraph "A" 1).links ∧
    (filterGraphByEntity triangleGraph "A" 1).links.length = 2 := by
  decide

/-- C5 (amended): radius 0 returns exactly the center (the input nodes
whose id is the center id) and no links.  At radius 1 on the triangle
centered at `A`, all three nodes are returned but only the two links
incident to `A`; the cross-link `B—C` appears only once the radius lets a
hop-1 node be expanded, e.g. at radius 2, where all three links are
returned. -/
theorem c5_neighborhood_amended :
    (∀ (g : QPGraphData) (c : String),
      filterGraphByEntity g c 0 =
        { nodes := g.nodes.filter (fun node => decide (node.id = c)), links := [] }) ∧
    filterGraphByEntity triangleGraph "A" 1 =
      { nodes := triangleGraph.nodes,
        links := [{ source := "A", target := "B", label := some "X" },
                  { source := "A", target := "C", label := some "X" }] } ∧
    filterGraphByEntity triangleGraph "A" 2 =
      { nodes := triangleGraph.nodes,
        links := [{ source := "A", target := "B", label := some "X" },
                  { source := "A", target := "C", label := some "X" },
                  { source := "B", target := "C", label := some "X" }] } := by
  refine ⟨?_, by decide, by decide⟩
  intro g c
  have hpred : (fun (node : GraphNode) => decide (node.id ∈ [c]))
      = fun node => decide (node.id = c) := by
    funext node
    simp
  show QPGraphData.mk (g.nodes.filter (fun node => decide (node.id ∈ [c]))) [] = _
  rw [hpred]

/-! ## Shortest-path extraction (C7) -/

/-- The square `A—B—D`, `A—C—D` with `B` first in `A`'s adjacency. -/
def squareViaB : QPGraphData :=
  { nodes := [sampleNode "A", sampleNode "B", sampleNode "C", sampleNode "D"],
    links := [{ source := "A", target := "B" }, { source := "B", target := "D" },
              { source := "A", target := "C" }, { source := "C", target := "D" }] }

/-- The same square with the links reordered so `C` is first in `A`'s
adjacency. -/
def squareViaC : QPGraphData :=
  { nodes := [sampleNode "A", sampleNode "B", sampleNode "C", sampleNode "D"],
    links := [{ source := "A", target := "C" }, { source := "C", target := "D" },
              { source := "A", target := "B" }, { source := "B", target := "D" }] }

/-- C7 (confirmed): on the 4-cycle `A-B-D` / `A-C-D`, the shortest-path
extraction returns a 2-link path through whichever of `B`/`C` occurs first
in `A`'s adjacency list (i.e. in link insertion order): with the `A—B`
link listed first the path runs through `B`, and with the `A—C` link
listed first it runs through `C`.  As a Lean function of the input view
the result is deterministic for a fixed input order by construction. -/
theorem c7_shortest_path_tiebreak :
    findPathBetweenEntities squareViaB "A" "D" =
      { nodes := [sampleNode "A", sampleNode "B", sampleNode "D"],
        links := [{ source := "A", target := "B" }, { source := "B", target := "D" }] } ∧
    findPathBetweenEntities squareViaC "A" "D" =
      { nodes := [sampleNode "A", sampleNode "C", sampleNode "D"],
        links := [{ source := "A", target := "C" }, { source := "C", target := "D" }] } := by
  constructor <;> decide

/-! ## No-path behavior of the shortest-path extraction (C8) -/

/-- Two ids are joined by some stored link, in either direction — one step
of the undirected projection `findPathBetweenEntities` searches. -/
def Adjacent (links : List SLink) (a b : String) : Prop :=
  ∃ l ∈ links, (l.source = a ∧ l.target = b) ∨ (l.source = b ∧ l.target = a)

/-- Bucket lookup on the empty adjacency list. -/
theorem getAdj_nil (k : String) : getAdj [] k = [] := rfl

/-- Bucket lookup on a cons cell. -/
theorem getAdj_cons (k₀ : String) (vs : List String)
    (m : List (String × List String)) (k' : String) :
    getAdj ((k₀, vs) :: m) k' = if k₀ = k' then vs else getAdj m k' := by
  by_cases h : k₀ = k' <;> simp [getAdj, List.find?, h]

/-- Bucket contents after one `addAdj`. -/
theorem getAdj_addAdj (m : List (String × List String)) (k v k' : String) :
    getAdj (addAdj m k v) k' =
      if k = k' then getAdj m k' ++ [v] else getAdj m k' := by
  induction m with
  | nil =>
    by_cases h : k = k' <;> simp [addAdj, getAdj_nil, getAdj_cons, h]
  | cons kv rest ih =>
    obtain ⟨k₀, vs⟩ := kv
    by_cases h0 : k₀ = k
    · subst h0
      by_cases h' : k₀ = k'
      · subst h'
        simp [addAdj, getAdj_cons]
      · simp [addAdj, getAdj_cons, h', fun h : k₀ = k' => h' h]
    · by_cases h' : k₀ = k'
      · subst h'
        have hkk' : ¬ k = k₀ := fun h => h0 h.symm
        simp [addAdj, h0, getAdj_cons, hkk']
      · simp [addAdj, h0, getAdj_cons, h', ih]

/-- Adjacency soundness: anything found in a bucket of the built adjacency
list is adjacent (via some stored link, either direction). -/
theorem mem_getAdj_buildAdjacency {links : List SLink} {a b : String}
    (h : b ∈ getAdj (buildAdjacency links) a) : Adjacent links a b := by
  suffices H : ∀ (ls : List SLink) (m : List (String × List String)),
      b ∈ getAdj (ls.foldl (fun m l => addAdj (addAdj m l.source l.target) l.target l.source) m) a →
      b ∈ getAdj m a ∨ Adjacent ls a b by
    rcases H links [] h with h' | h'
    · simp [getAdj, List.find?] at h'
    · exact h'
  intro ls
  induction ls with
  | nil => intro m hm; exact Or.inl hm
  | cons l ls ih =>
    intro m hm
    rcases ih _ hm with h' | h'
    · rw [getAdj_addAdj, getAdj_addAdj] at h'
      by_cases h1 : l.target = a
      · rw [if_pos h1] at h'
        by_cases h2 : l.source = a
        · rw [if_pos h2] at h'
          rcases List.mem_append.mp h' with h'' | h''
          · rcases List.mem_append.mp h'' with h3 | h3
            · exact Or.inl h3
            · exact Or.inr ⟨l, List.mem_cons_self l ls,
                Or.inl ⟨h2, (List.mem_singleton.mp h3).symm⟩⟩
          · exact Or.inr ⟨l, List.mem_cons_self l ls,
              Or.inr ⟨(List.mem_singleton.mp h'').symm, h1⟩⟩
        · rw [if_neg h2] at h'
          rcases List.mem_append.mp h' with h'' | h''
          · exact Or.inl h''
          · exact Or.inr ⟨l, List.mem_cons_self l ls,
              Or.inr ⟨(List.mem_singleton.mp h'').symm, h1⟩⟩
      · rw [if_neg h1] at h'
        by_cases h2 : l.source = a
        · rw [if_pos h2] at h'
          rcases List.mem_append.mp h' with h'' | h''
          · exact Or.inl h''
          · exact Or.inr ⟨l, List.mem_cons_self l ls,
              Or.inl ⟨h2, (List.mem_singleton.mp h'').symm⟩⟩
        · rw [if_neg h2] at h'
          exact Or.inl h'
    · exact Or.inr (h'.imp (fun l' => And.imp_left (List.mem_cons_of_mem l)))

/-- If the target is unreachable from every path-end in the queue, the BFS
loop of `findPathBetweenEntities` reports no path. -/
theorem bfsLoop_eq_none {links : List SLink} {s targetId : String}
    (hnr : ¬ Relation.ReflTransGen (Adjacent links) s targetId) :
    ∀ (fuel : Nat) (queue : List (List String)) (visited : List String),
      (∀ p ∈ queue, Relation.ReflTransGen (Adjacent links) s (p.getLastD "")) →
      bfsLoop (buildAdjacency links) targetId fuel queue visited = none := by
  intro fuel
  induction fuel with
  | zero => intro queue visited _; rfl
  | succ fuel ih =>
    intro queue visited hq
    cases queue with
    | nil => rfl
    | cons path rest =>
      simp only [bfsLoop]
      have hreach : Relation.ReflTransGen (Adjacent links) s (path.getLastD "") :=
        hq path (List.mem_cons_self path rest)
      rw [if_neg (fun h : path.getLastD "" = targetId => hnr (h ▸ hreach))]
      refine ih _ _ ?_
      have hrest : ∀ p ∈ rest, Relation.ReflTransGen (Adjacent links) s (p.getLastD "") :=
        fun p hp => hq p (List.mem_cons_of_mem _ hp)
      -- the fold only appends extensions of `path` by adjacent neighbors
      have hfold : ∀ (ns : List String)
          (st : List (List String) × List String),
          (∀ nb ∈ ns, nb ∈ getAdj (buildAdjacency links) (path.getLastD "")) →
          (∀ p ∈ st.1, Relation.ReflTransGen (Adjacent links) s (p.getLastD "")) →
          ∀ p ∈ (ns.foldl
            (fun (st : List (List String) × List String) neighbor =>
              if neighbor ∈ st.2 then st
              else (st.1 ++ [path ++ [neighbor]], neighbor :: st.2)) st).1,
            Relation.ReflTransGen (Adjacent links) s (p.getLastD "") := by
        intro ns
        induction ns with
        | nil => intro st _ hst p hp; exact hst p hp
        | cons nb ns ihn =>
          intro st hns hst
          simp only [List.foldl_cons]
          by_cases hv : nb ∈ st.2
          · rw [if_pos hv]
            exact ihn st (fun x hx => hns x (List.mem_cons_of_mem _ hx)) hst
          · rw [if_neg hv]
            refine ihn _ (fun x hx => hns x (List.mem_cons_of_mem _ hx)) ?_
            intro p hp
            rcases List.mem_append.mp hp with hp | hp
            · exact hst p hp
            · rcases List.mem_singleton.mp hp with rfl
              rw [List.getLastD_concat]
              exact hreach.tail
                (mem_getAdj_buildAdjacency (hns nb (List.mem_cons_self nb ns)))
      exact hfold _ _ (fun nb hnb => hnb) hrest

/-- C8 (confirmed): when no undirected path joins `sourceId` to `targetId`,
`findPathBetweenEntities` neither fails nor finds anything: it returns the
view whose nodes are exactly the input nodes carrying one of the two
endpoint ids, with no links. -/
theorem c8_no_path_best_effort (g : QPGraphData) (sourceId targetId : String)
    (h : ¬ Relation.ReflTransGen (Adjacent g.links) sourceId targetId) :
    findPathBetweenEntities g sourceId targetId =
      { nodes := g.nodes.filter (fun node =>
          decide (node.id = sourceId) || decide (node.id = targetId)),
        links := [] } := by
  simp only [findPathBetweenEntities]
  rw [bfsLoop_eq_none h _ _ _ (fun p hp => by
    rcases List.mem_singleton.mp hp with rfl
    exact Relation.ReflTransGen.refl)]

/-- In a view with no links at all, nothing is adjacent, so reachability
collapses to equality. -/
theorem reflTransGen_adjacent_nil {a b : String}
    (h : Relation.ReflTransGen (Adjacent ([] : List SLink)) a b) : a = b := by
  induction h with
  | refl => rfl
  | tail _ hstep ih => rcases hstep with ⟨l, hl, -⟩; cases hl

/-- C8 instantiated: two isolated nodes, no path between them. -/
theorem c8_no_path_best_effort_witness :
    (¬ Relation.ReflTransGen
        (Adjacent ({ nodes := [sampleNode "A", sampleNode "B"], links := [] }
          : QPGraphData).links) "A" "B") ∧
    findPathBetweenEntities
        { nodes := [sampleNode "A", sampleNode "B"], links := [] } "A" "B" =
      { nodes := [sampleNode "A", sampleNode "B"], links := [] } := by
  have hnr : ¬ Relation.ReflTransGen (Adjacent ([] : List SLink)) "A" "B" := by
    intro hr
    have := reflTransGen_adjacent_nil hr
    simp at this
  refine ⟨hnr, ?_⟩
  rw [c8_no_path_best_effort _ _ _ hnr]
  decide

/-! ## No dangling edges (C4) -/

/-- `noDangling` unfolded to a membership statement. -/
theorem noDangling_iff {g : GraphData} :
    noDangling g = true ↔ ∀ l ∈ g.links,
      (normalizeLink l).source ∈ nodeIds g.nodes ∧
      (normalizeLink l).target ∈ nodeIds g.nodes := by
  simp [noDangling, List.all_eq_true]

/-- `qpNoDangling` unfolded to a membership statement. -/
theorem qpNoDangling_iff {g : QPGraphData} :
    qpNoDangling g = true ↔ ∀ l ∈ g.links,
      l.source ∈ nodeIds g.nodes ∧ l.target ∈ nodeIds g.nodes := by
  simp [qpNoDangling, List.all_eq_true]

/-- `nodeIds` distributes over append. -/
theorem nodeIds_append (a b : List GraphNode) :
    nodeIds (a ++ b) = nodeIds a ++ nodeIds b :=
  List.map_append _ a b

/-- An id that occurs among a node list's ids and satisfies the filtering
property still occurs among the ids of the filtered list. -/
theorem mem_nodeIds_filter {e : String} {ns : List GraphNode}
    (p : String → Prop) [DecidablePred p]
    (he : e ∈ nodeIds ns) (hp : p e) :
    e ∈ nodeIds (ns.filter (fun n => decide (p n.id))) := by
  rcases List.mem_map.mp he with ⟨n, hn, rfl⟩
  exact List.mem_map.mpr ⟨n, List.mem_filter.mpr ⟨hn, decide_eq_true hp⟩, rfl⟩

/-- Invariant carried through the BFS of `filterGraphByEntity`: every
queued id is already included, and every kept link is a stored link with
both endpoints included. -/
def ScanInv (links₀ : List SLink)
    (st : List String × List (String × Nat) × List SLink) : Prop :=
  (∀ qd ∈ st.2.1, Prod.fst qd ∈ st.1) ∧
  (∀ l ∈ st.2.2, l ∈ links₀ ∧ l.source ∈ st.1 ∧ l.target ∈ st.1)

/-- What a successful `connectedId` lookup says about the link. -/
theorem connectedId_eq_some {curr : String} {link : SLink} {cid : String}
    (h : connectedId curr link = some cid) :
    (link.source = curr ∧ link.target = cid) ∨
    (link.target = curr ∧ link.source = cid) := by
  unfold connectedId at h
  by_cases hs : link.source = curr
  · rw [if_pos hs] at h
    exact Or.inl ⟨hs, Option.some.inj h⟩
  · rw [if_neg hs] at h
    by_cases ht : link.target = curr
    · rw [if_pos ht] at h
      exact Or.inr ⟨ht, Option.some.inj h⟩
    · rw [if_neg ht] at h
      cases h

/-- One scan step preserves the invariant and only grows the included-id
list. -/
theorem scanStep_inv {links₀ : List SLink} {curr : String} {dist : Nat}
    {st : List String × List (String × Nat) × List SLink} {link : SLink}
    (hlink : link ∈ links₀) (hcurr : curr ∈ st.1) (hinv : ScanInv links₀ st) :
    ScanInv links₀ (scanStep curr dist st link) ∧
    (∀ x ∈ st.1, x ∈ (scanStep curr dist st link).1) ∧
    curr ∈ (scanStep curr dist st link).1 := by
  rcases hinv with ⟨hq, hl⟩
  unfold scanStep
  rcases hc : connectedId curr link with _ | cid
  · exact ⟨⟨hq, hl⟩, fun x hx => hx, hcurr⟩
  · simp only []
    by_cases he : cid = ""
    · rw [if_pos he]
      exact ⟨⟨hq, hl⟩, fun x hx => hx, hcurr⟩
    · rw [if_neg he]
      by_cases hmem : cid ∈ st.1
      · rw [if_neg (not_not_intro hmem)]
        by_cases hdup : (st.2.2.any (fun l =>
            (decide (l.source = link.source) && decide (l.target = link.target)) ||
            (decide (l.source = link.target) && decide (l.target = link.source)))) = true
        · rw [if_pos hdup]
          exact ⟨⟨hq, hl⟩, fun x hx => hx, hcurr⟩
        · rw [if_neg hdup]
          refine ⟨⟨hq, ?_⟩, fun x hx => hx, hcurr⟩
          intro l hlmem
          rcases List.mem_append.mp hlmem with hlmem | hlmem
          · exact hl l hlmem
          · rcases List.mem_singleton.mp hlmem with rfl
            rcases connectedId_eq_some hc with ⟨h1, h2⟩ | ⟨h1, h2⟩
            · exact ⟨hlink, h1 ▸ hcurr, h2 ▸ hmem⟩
            · exact ⟨hlink, h2 ▸ hmem, h1 ▸ hcurr⟩
      · rw [if_pos hmem]
        refine ⟨⟨?_, ?_⟩, fun x hx => List.mem_cons_of_mem _ hx,
          List.mem_cons_of_mem _ hcurr⟩
        · intro qd hqd
          rcases List.mem_append.mp hqd with hqd | hqd
          · exact List.mem_cons_of_mem _ (hq qd hqd)
          · rcases List.mem_singleton.mp hqd with rfl
            exact List.mem_cons_self cid st.1
        · intro l hlmem
          rcases List.mem_append.mp hlmem with hlmem | hlmem
          · obtain ⟨ha, hb, hc'⟩ := hl l hlmem
            exact ⟨ha, List.mem_cons_of_mem _ hb, List.mem_cons_of_mem _ hc'⟩
          · rcases List.mem_singleton.mp hlmem with rfl
            rcases connectedId_eq_some hc with ⟨h1, h2⟩ | ⟨h1, h2⟩
            · exact ⟨hlink, List.mem_cons_of_mem _ (h1 ▸ hcurr),
                h2 ▸ List.mem_cons_self cid st.1⟩
            · exact ⟨hlink, h2 ▸ List.mem_cons_self cid st.1,
                List.mem_cons_of_mem _ (h1 ▸ hcurr)⟩

/-- The whole link scan of one expanded node preserves the invariant. -/
theorem scanFold_inv {links₀ : List SLink} {curr : String} {dist : Nat} :
    ∀ (scan : List SLink) (st : List String × List (String × Nat) × List SLink),
      (∀ l ∈ scan, l ∈ links₀) → curr ∈ st.1 → ScanInv links₀ st →
      ScanInv links₀ (scan.foldl (scanStep curr dist) st) := by
  intro scan
  induction scan with
  | nil => intro st _ _ hinv; exact hinv
  | cons link rest ih =>
    intro st hscan hcurr hinv
    simp only [List.foldl_cons]
    obtain ⟨hinv', _, hcurr'⟩ :=
      scanStep_inv (hscan link (List.mem_cons_self link rest)) hcurr hinv
    exact ih _ (fun l hl => hscan l (List.mem_cons_of_mem _ hl)) hcurr' hinv'

/-- The BFS loop of `filterGraphByEntity` only emits stored links whose
endpoints are in the final included-id list. -/
theorem bfeLoop_inv {links : List SLink} {maxD : Nat} :
    ∀ (fuel : Nat) (queue : List (String × Nat)) (inc : List String)
      (incL : List SLink),
      ScanInv links (inc, queue, incL) →
      ∀ l ∈ (bfeLoop links maxD fuel queue inc incL).2,
        l ∈ links ∧ l.source ∈ (bfeLoop links maxD fuel queue inc incL).1 ∧
          l.target ∈ (bfeLoop links maxD fuel queue inc incL).1 := by
  intro fuel
  induction fuel with
  | zero => intro queue inc incL hinv; exact hinv.2
  | succ fuel ih =>
    intro queue inc incL hinv
    cases queue with
    | nil => exact hinv.2
    | cons cd rest =>
      obtain ⟨curr, dist⟩ := cd
      simp only [bfeLoop]
      by_cases hlt : dist < maxD
      · rw [if_pos hlt]
        have hcurr : curr ∈ inc := hinv.1 (curr, dist) (List.mem_cons_self _ _)
        have hrest : ScanInv links (inc, rest, incL) :=
          ⟨fun qd hq => hinv.1 qd (List.mem_cons_of_mem _ hq), hinv.2⟩
        exact ih _ _ _ (scanFold_inv links _ (fun l hl => hl) hcurr hrest)
      · rw [if_neg hlt]
        exact ih rest inc incL
          ⟨fun qd hq => hinv.1 qd (List.mem_cons_of_mem _ hq), hinv.2⟩

/-- Links reconstructed along a found path are stored links whose
endpoints lie on the path. -/
theorem pathLinks_mem {links : List SLink} :
    ∀ (p : List String) (l : SLink), l ∈ pathLinks links p →
      l ∈ links ∧ l.source ∈ p ∧ l.target ∈ p := by
  intro p
  induction p with
  | nil => intro l hl; cases hl
  | cons a p' ih =>
    intro l hl
    cases p' with
    | nil => cases hl
    | cons b rest =>
      simp only [pathLinks] at hl
      rcases List.mem_append.mp hl with hl | hl
      · rcases hf : links.find? (fun l =>
            (decide (l.source = a) && decide (l.target = b)) ||
            (decide (l.source = b) && decide (l.target = a))) with _ | l₀
        · rw [hf] at hl; cases hl
        · rw [hf] at hl
          rcases List.mem_singleton.mp hl with rfl
          have hmem : l ∈ links := List.mem_of_find?_eq_some hf
          have hpred := List.find?_some hf
          simp only [Bool.or_eq_true, Bool.and_eq_true, decide_eq_true_eq] at hpred
          rcases hpred with ⟨h1, h2⟩ | ⟨h1, h2⟩
          · refine ⟨hmem, ?_, ?_⟩
            · rw [h1]; exact List.mem_cons_self a (b :: rest)
            · rw [h2]; exact List.mem_cons_of_mem _ (List.mem_cons_self b rest)
          · refine ⟨hmem, ?_, ?_⟩
            · rw [h1]; exact List.mem_cons_of_mem _ (List.mem_cons_self b rest)
            · rw [h2]; exact List.mem_cons_self a (b :: rest)
      · obtain ⟨hmem, hs, ht⟩ := ih l hl
        exact ⟨hmem, List.mem_cons_of_mem _ hs, List.mem_cons_of_mem _ ht⟩

/-- C4 (confirmed): for input views without dangling edges, each of the
merge, the bounded-radius neighborhood, the relationship-type filter and
the shortest-path extraction produces a view in which every link's source
and target id appears among the view's node ids. -/
theorem c4_no_dangling :
    (∀ (G F : GraphData), noDangling G = true →
       noDangling (addNodesToGraph (some G) F) = true) ∧
    (∀ (g : QPGraphData) (c : String) (r : Nat), qpNoDangling g = true →
       qpNoDangling (filterGraphByEntity g c r) = true) ∧
    (∀ (g : QPGraphData) (rel : String) (e : Option String),
       qpNoDangling g = true →
       qpNoDangling (filterGraphByRelationship g rel e) = true) ∧
    (∀ (g : QPGraphData) (s t : String), qpNoDangling g = true →
       qpNoDangling (findPathBetweenEntities g s t) = true) := by
  refine ⟨?_, ?_, ?_, ?_⟩
  · intro G F h
    rw [noDangling_iff] at h ⊢
    rw [addNodesToGraph_some]
    intro l hl
    rcases List.mem_append.mp hl with hl | hl
    · obtain ⟨hs, ht⟩ := h l hl
      rw [nodeIds_append]
      exact ⟨List.mem_append.mpr (Or.inl hs), List.mem_append.mpr (Or.inl ht)⟩
    · rcases List.mem_filter.mp hl with ⟨-, hpred⟩
      simp only [Bool.and_eq_true, decide_eq_true_eq] at hpred
      exact ⟨hpred.1.1, hpred.1.2⟩
  · intro g c r h
    rw [qpNoDangling_iff] at h ⊢
    simp only [filterGraphByEntity]
    intro l hl
    have hinv₀ : ScanInv g.links ([c], [(c, 0)], []) := by
      constructor
      · intro qd hq
        rcases List.mem_singleton.mp hq with rfl
        exact List.mem_cons_self c []
      · intro l hl
        cases hl
    obtain ⟨hmem, hsrc, htgt⟩ := bfeLoop_inv _ _ _ _ hinv₀ l hl
    obtain ⟨hs', ht'⟩ := h l hmem
    exact ⟨mem_nodeIds_filter _ hs' hsrc, mem_nodeIds_filter _ ht' htgt⟩
  · intro g rel e h
    rw [qpNoDangling_iff] at h ⊢
    simp only [filterGraphByRelationship]
    intro l hl
    obtain ⟨hs', ht'⟩ := h l (List.mem_of_mem_filter hl)
    constructor
    · refine mem_nodeIds_filter _ hs' ?_
      exact List.mem_flatMap.mpr ⟨l, hl, by simp⟩
    · refine mem_nodeIds_filter _ ht' ?_
      exact List.mem_flatMap.mpr ⟨l, hl, by simp⟩
  · intro g s t h
    rw [qpNoDangling_iff] at h ⊢
    simp only [findPathBetweenEntities]
    rcases hbfs : bfsLoop (buildAdjacency g.links) t
        (2 * g.links.length + 2) [[s]] [s] with _ | path
    · intro l hl
      exact absurd hl (List.not_mem_nil l)
    · intro l hl
      obtain ⟨hmem, hs', ht'⟩ := pathLinks_mem path l hl
      obtain ⟨hsg, htg⟩ := h l hmem
      exact ⟨mem_nodeIds_filter _ hsg hs', mem_nodeIds_filter _ htg ht'⟩

/-- C4 instantiated on concrete views. -/
theorem c4_no_dangling_witness :
    noDangling dupCurrent = true ∧ qpNoDangling triangleGraph = true ∧
    noDangling (addNodesToGraph (some dupCurrent) dupFragment) = true ∧
    qpNoDangling (filterGraphByEntity triangleGraph "A" 1) = true ∧
    qpNoDangling (filterGraphByRelationship triangleGraph "X" (some "A")) = true ∧
    qpNoDangling (findPathBetweenEntities triangleGraph "A" "C") = true :=
  ⟨by decide, by decide,
   c4_no_dangling.1 _ _ (by decide),
   c4_no_dangling.2.1 _ _ _ (by decide),
   c4_no_dangling.2.2.1 _ _ _ (by decide),
   c4_no_dangling.2.2.2 _ _ _ (by decide)⟩

/-! ## Descendant computation and collapse
(`src/components/GraphVisualization/types.ts`) -/

/-- JavaScript `Set.add`: append if absent (insertion order preserved,
which is the order `Array.from` reads back). -/
def insertIfAbsent (l : List String) (x : String) : List String :=
  if x ∈ l then l else l ++ [x]

/-- The parent→children `connectionsMap` of `findDescendantNodes`: for
each link (in order), the normalized target id is appended to the
normalized source id's bucket. -/
def buildConnections (links : List Link) : List (String × List String) :=
  links.foldl (fun m l => addAdj m (refId l.source) (refId l.target)) []

/-- The recursive `findChildren` of `findDescendantNodes`: stop on a
visited node (cycle protection); otherwise mark the node visited, then for
each child in bucket order add it to the descendants set and recurse —
the visited and descendants sets are shared across the whole walk, which
the state pair threads.  Fuel bounds the recursion depth: a call either
returns at once or marks a previously unvisited id, every marked id is
the walk's start or some link target, and the fuel used below never
exceeds one per markable id (see `findChildren_props`). -/
def findChildren (cmap : List (String × List String)) :
    Nat → String → List String × List String → List String × List String
  | 0, _, st => st
  | fuel + 1, nodeId, st =>
    if nodeId ∈ st.1 then st
    else
      (getAdj cmap nodeId).foldl
        (fun acc childId =>
          findChildren cmap fuel childId (acc.1, insertIfAbsent acc.2 childId))
        (nodeId :: st.1, st.2)

/-- `findDescendantNodes` from `GraphVisualization/types.ts` (lines
41-83): all ids reachable from `parentId` by one or more directed
(source→target) steps, in discovery order. -/
def findDescendantNodes (parentId : String) (graphData : GraphData) : List String :=
  let connectionsMap := buildConnections graphData.links
  (findChildren connectionsMap (2 * graphData.links.length + 2) parentId ([], [])).2

/-- The graph update performed by `collapseNode`
(`GraphVisualization/types.ts` lines 86-156), stripped of its rendering
side effects: with no descendants the view is left unchanged (early
return); otherwise every node whose id is a descendant and every link
touching a descendant are removed. -/
def collapseNode (nodeId : String) (currentData : GraphData) : GraphData :=
  let descendantIds := findDescendantNodes nodeId currentData
  if descendantIds.isEmpty then currentData
  else
    { nodes := currentData.nodes.filter (fun n => decide (n.id ∉ descendantIds)),
      links := currentData.links.filter (fun link =>
        decide (refId link.source ∉ descendantIds) &&
        decide (refId link.target ∉ descendantIds)) }

/-- The directed tree `Root→C1`, `Root→C2`, `C1→G1`. -/
def rootTree : GraphData :=
  { nodes := [sampleNode "Root", sampleNode "C1", sampleNode "C2", sampleNode "G1"],
    links := [{ source := .str "Root", target := .str "C1" },
              { source := .str "Root", target := .str "C2" },
              { source := .str "C1", target := .str "G1" }] }

/-- C6 (confirmed): on the directed tree `Root→{C1,C2}`, `C1→{G1}`, the
descendant set of `Root` is exactly `{C1, C2, G1}`, and collapsing `Root`
removes exactly those three nodes and all three links (each touches a
descendant), leaving `Root` alone in the view. -/
theorem c6_descendant_collapse :
    (∀ x, x ∈ findDescendantNodes "Root" rootTree ↔ x ∈ ["C1", "C2", "G1"]) ∧
    collapseNode "Root" rootTree = { nodes := [sampleNode "Root"], links := [] } := by
  have h : findDescendantNodes "Root" rootTree = ["C1", "G1", "C2"] := by decide
  constructor
  · intro x
    rw [h]
    simp only [List.mem_cons, List.not_mem_nil, or_false]
    tauto
  · decide

/-! ## The collapse root under cycles (C10) -/

/-- Filtering with a stronger predicate keeps at most as many elements. -/
theorem length_filter_le_filter {α : Type} {p q : α → Bool}
    (h : ∀ a, p a = true → q a = true) (l : List α) :
    (l.filter p).length ≤ (l.filter q).length := by
  induction l with
  | nil => exact Nat.le_refl 0
  | cons a l ih =>
    by_cases hp : p a = true
    · rw [List.filter_cons_of_pos hp, List.filter_cons_of_pos (h a hp)]
      exact Nat.succ_le_succ ih
    · rw [List.filter_cons_of_neg (by simpa using hp)]
      by_cases hq : q a = true
      · rw [List.filter_cons_of_pos hq]
        exact Nat.le_succ_of_le ih
      · rw [List.filter_cons_of_neg (by simpa using hq)]
        exact ih

/-- A strict version of `length_filter_le_filter`, witnessed by one
element kept by `q` and dropped by `p`. -/
theorem length_filter_lt_filter {α : Type} {p q : α → Bool}
    (h : ∀ a, p a = true → q a = true) {l : List α} {x : α}
    (hx : x ∈ l) (hqx : q x = true) (hpx : p x = false) :
    (l.filter p).length < (l.filter q).length := by
  induction l with
  | nil => cases hx
  | cons a l ih =>
    rcases List.mem_cons.mp hx with rfl | hx'
    · rw [List.filter_cons_of_pos hqx, List.filter_cons_of_neg (by simp [hpx])]
      exact Nat.lt_succ_of_le (length_filter_le_filter h l)
    · by_cases hp : p a = true
      · rw [List.filter_cons_of_pos hp, List.filter_cons_of_pos (h a hp)]
        exact Nat.succ_lt_succ (ih hx')
      · rw [List.filter_cons_of_neg (by simpa using hp)]
        by_cases hq : q a = true
        · rw [List.filter_cons_of_pos hq]
          exact Nat.lt_succ_of_lt (ih hx')
        · rw [List.filter_cons_of_neg (by simpa using hq)]
          exact ih hx'

/-- The number of ids of `univ` not yet visited. -/
def unvisitedCount (univ v : List String) : Nat :=
  (univ.filter (fun x => decide (x ∉ v))).length

/-- Growing the visited list cannot increase the unvisited count. -/
theorem unvisitedCount_mono {univ v v' : List String}
    (h : ∀ x ∈ v, x ∈ v') : unvisitedCount univ v' ≤ unvisitedCount univ v :=
  length_filter_le_filter (fun a ha => by
    simp only [decide_eq_true_eq] at ha ⊢
    exact fun hav => ha (h a hav)) univ

/-- Visiting a fresh id of `univ` strictly decreases the unvisited count. -/
theorem unvisitedCount_lt {univ v : List String} {n : String}
    (hn : n ∈ univ) (hnv : n ∉ v) :
    unvisitedCount univ (n :: v) < unvisitedCount univ v := by
  refine length_filter_lt_filter (fun a ha => ?_) hn (decide_eq_true hnv) (by simp)
  simp only [decide_eq_true_eq] at ha ⊢
  exact fun hav => ha (List.mem_cons_of_mem _ hav)

theorem mem_insertIfAbsent_self (l : List String) (x : String) :
    x ∈ insertIfAbsent l x := by
  unfold insertIfAbsent
  by_cases h : x ∈ l
  · rw [if_pos h]; exact h
  · rw [if_neg h]
    exact List.mem_append.mpr (Or.inr (List.mem_singleton.mpr rfl))

theorem mem_insertIfAbsent_of_mem {l : List String} {y : String} (x : String)
    (h : y ∈ l) : y ∈ insertIfAbsent l x := by
  unfold insertIfAbsent
  by_cases hx : x ∈ l
  · rw [if_pos hx]; exact h
  · rw [if_neg hx]; exact List.mem_append.mpr (Or.inl h)

theorem mem_insertIfAbsent {l : List String} {x y : String}
    (h : y ∈ insertIfAbsent l x) : y ∈ l ∨ y = x := by
  unfold insertIfAbsent at h
  by_cases hx : x ∈ l
  · rw [if_pos hx] at h; exact Or.inl h
  · rw [if_neg hx] at h
    rcases List.mem_append.mp h with h | h
    · exact Or.inl h
    · exact Or.inr (List.mem_singleton.mp h)

/-- Invariants of the depth-first walk, proved with the fuel accounting
described at `findChildren`: when the remaining fuel exceeds the number of
unvisited ids of a universe `univ` that contains the start node and every
bucket member, the walk (1) only grows the visited and descendant sets,
(2) records all children of every node it newly visits, (3) visits every
descendant it newly records, and (4) visits the start node. -/
theorem findChildren_props (cmap : List (String × List String))
    (univ : List String) (hc : ∀ n x, x ∈ getAdj cmap n → x ∈ univ) :
    ∀ (fuel : Nat) (nodeId : String) (st : List String × List String),
      nodeId ∈ univ →
      unvisitedCount univ st.1 < fuel →
      (∀ x ∈ st.1, x ∈ (findChildren cmap fuel nodeId st).1) ∧
      (∀ x ∈ st.2, x ∈ (findChildren cmap fuel nodeId st).2) ∧
      (∀ x ∈ (findChildren cmap fuel nodeId st).1, x ∉ st.1 →
        ∀ y ∈ getAdj cmap x, y ∈ (findChildren cmap fuel nodeId st).2) ∧
      (∀ x ∈ (findChildren cmap fuel nodeId st).2, x ∉ st.2 →
        x ∈ (findChildren cmap fuel nodeId st).1) ∧
      nodeId ∈ (findChildren cmap fuel nodeId st).1 := by
  intro fuel
  induction fuel with
  | zero => intro nodeId st _ hlt; exact absurd hlt (Nat.not_lt_zero _)
  | succ fuel ih =>
    intro nodeId st hnode hlt
    by_cases hvis : nodeId ∈ st.1
    · simp only [findChildren, if_pos hvis]
      exact ⟨fun x hx => hx, fun x hx => hx,
        fun x hx hnx => absurd hx hnx,
        fun x hx hnx => absurd hx hnx, hvis⟩
    · simp only [findChildren, if_neg hvis]
      have hm0 : unvisitedCount univ (nodeId :: st.1) < fuel := by
        have h1 := unvisitedCount_lt hnode hvis
        omega
      have inner : ∀ (children : List String) (acc : List String × List String),
          (∀ y ∈ children, y ∈ univ) →
          unvisitedCount univ acc.1 < fuel →
          (∀ x ∈ acc.1, x ∈ (children.foldl (fun acc childId =>
            findChildren cmap fuel childId
              (acc.1, insertIfAbsent acc.2 childId)) acc).1) ∧
          (∀ x ∈ acc.2, x ∈ (children.foldl (fun acc childId =>
            findChildren cmap fuel childId
              (acc.1, insertIfAbsent acc.2 childId)) acc).2) ∧
          (∀ x ∈ (children.foldl (fun acc childId =>
            findChildren cmap fuel childId
              (acc.1, insertIfAbsent acc.2 childId)) acc).1, x ∉ acc.1 →
            ∀ y ∈ getAdj cmap x, y ∈ (children.foldl (fun acc childId =>
              findChildren cmap fuel childId
                (acc.1, insertIfAbsent acc.2 childId)) acc).2) ∧
          (∀ x ∈ (children.foldl (fun acc childId =>
            findChildren cmap fuel childId
              (acc.1, insertIfAbsent acc.2 childId)) acc).2, x ∉ acc.2 →
            x ∈ (children.foldl (fun acc childId =>
              findChildren cmap fuel childId
                (acc.1, insertIfAbsent acc.2 childId)) acc).1) ∧
          (∀ y ∈ children, y ∈ (children.foldl (fun acc childId =>
            findChildren cmap fuel childId
              (acc.1, insertIfAbsent acc.2 childId)) acc).2) ∧
          unvisitedCount univ (children.foldl (fun acc childId =>
            findChildren cmap fuel childId
              (acc.1, insertIfAbsent acc.2 childId)) acc).1 ≤
            unvisitedCount univ acc.1 := by
        intro children
        induction children with
        | nil =>
          intro acc _ _
          exact ⟨fun x hx => hx, fun x hx => hx,
            fun x hx hnx => absurd hx hnx,
            fun x hx hnx => absurd hx hnx,
            fun y hy => absurd hy (List.not_mem_nil y),
            Nat.le_refl _⟩
        | cons child cs ihc =>
          intro acc hcu hacc
          simp only [List.foldl_cons]
          obtain ⟨m1, m2, cl, de, self⟩ :=
            ih child (acc.1, insertIfAbsent acc.2 child)
              (hcu child (List.mem_cons_self child cs)) hacc
          have hcnt1 : unvisitedCount univ
              (findChildren cmap fuel child
                (acc.1, insertIfAbsent acc.2 child)).1 ≤
              unvisitedCount univ acc.1 := unvisitedCount_mono m1
          obtain ⟨M1, M2, CL, DE, CH, CNT⟩ :=
            ihc (findChildren cmap fuel child (acc.1, insertIfAbsent acc.2 child))
              (fun y hy => hcu y (List.mem_cons_of_mem _ hy))
              (lt_of_le_of_lt hcnt1 hacc)
          refine ⟨?_, ?_, ?_, ?_, ?_, ?_⟩
          · exact fun x hx => M1 x (m1 x hx)
          · exact fun x hx => M2 x (m2 x (mem_insertIfAbsent_of_mem child hx))
          · intro x hx hnx
            by_cases hx1 : x ∈ (findChildren cmap fuel child
                (acc.1, insertIfAbsent acc.2 child)).1
            · exact fun y hy => M2 y (cl x hx1 hnx y hy)
            · exact CL x hx hx1
          · intro x hx hnx
            by_cases hx2 : x ∈ (findChildren cmap fuel child
                (acc.1, insertIfAbsent acc.2 child)).2
            · by_cases hxi : x ∈ insertIfAbsent acc.2 child
              · rcases mem_insertIfAbsent hxi with hxa | rfl
                · exact absurd hxa hnx
                · exact M1 _ self
              · exact M1 x (de x hx2 hxi)
            · exact DE x hx hx2
          · intro y hy
            rcases List.mem_cons.mp hy with rfl | hy'
            · exact M2 y (m2 y (mem_insertIfAbsent_self acc.2 y))
            · exact CH y hy'
          · exact le_trans CNT hcnt1
      obtain ⟨M1, M2, CL, DE, CH, -⟩ :=
        inner (getAdj cmap nodeId) (nodeId :: st.1, st.2)
          (fun y hy => hc nodeId y hy) hm0
      refine ⟨fun x hx => M1 x (List.mem_cons_of_mem _ hx), M2, ?_, DE,
        M1 nodeId (List.mem_cons_self nodeId st.1)⟩
      intro x hx hnx
      by_cases hxn : x = nodeId
      · subst hxn
        exact fun y hy => CH y hy
      · refine CL x hx (fun hmem => ?_)
        rcases List.mem_cons.mp hmem with h | h
        · exact hxn h
        · exact hnx h

/-- A bucket of the built connections map holds exactly the targets of the
links leaving its key, in link order. -/
theorem getAdj_buildConnections (links : List Link) (n : String) :
    getAdj (buildConnections links) n =
      (links.filter (fun l => decide (refId l.source = n))).map
        (fun l => refId l.target) := by
  suffices H : ∀ (ls : List Link) (m : List (String × List String)),
      getAdj (ls.foldl (fun m l => addAdj m (refId l.source) (refId l.target)) m) n =
      getAdj m n ++ (ls.filter (fun l => decide (refId l.source = n))).map
        (fun l => refId l.target) by
    simpa [buildConnections, getAdj_nil] using H links []
  intro ls
  induction ls with
  | nil => intro m; simp
  | cons l ls ihl =>
    intro m
    simp only [List.foldl_cons]
    rw [ihl, getAdj_addAdj]
    by_cases h : refId l.source = n
    · rw [if_pos h]
      simp [List.filter_cons, h, List.append_assoc]
    · rw [if_neg h]
      simp [List.filter_cons, h]

/-- C10 (confirmed): if some transitively reached child `c` of `rootId`
has a directed link back to `rootId`, then `findDescendantNodes` includes
`rootId` in its own descendant set, and collapsing `rootId` therefore
deletes the clicked node itself and every link touching it, not just its
proper descendants. -/
theorem c10_root_in_own_descendants (g : GraphData) (rootId c : String)
    (hc : c ∈ findDescendantNodes rootId g)
    (hedge : ∃ l ∈ g.links, refId l.source = c ∧ refId l.target = rootId) :
    rootId ∈ findDescendantNodes rootId g ∧
    (∀ n ∈ (collapseNode rootId g).nodes, n.id ≠ rootId) ∧
    (∀ l ∈ (collapseNode rootId g).links,
      refId l.source ≠ rootId ∧ refId l.target ≠ rootId) := by
  have hcuniv : ∀ n x, x ∈ getAdj (buildConnections g.links) n →
      x ∈ rootId :: g.links.map (fun l => refId l.target) := by
    intro n x hx
    rw [getAdj_buildConnections] at hx
    rcases List.mem_map.mp hx with ⟨l, hl, rfl⟩
    exact List.mem_cons_of_mem _
      (List.mem_map.mpr ⟨l, List.mem_of_mem_filter hl, rfl⟩)
  have hfuel : unvisitedCount (rootId :: g.links.map (fun l => refId l.target)) [] <
      2 * g.links.length + 2 := by
    have h1 : unvisitedCount (rootId :: g.links.map (fun l => refId l.target)) [] ≤
        (rootId :: g.links.map (fun l => refId l.target)).length :=
      List.length_filter_le _ _
    simp only [List.length_cons, List.length_map] at h1
    omega
  obtain ⟨-, -, CL, DE, -⟩ :=
    findChildren_props (buildConnections g.links) _ hcuniv
      (2 * g.links.length + 2) rootId ([], [])
      (List.mem_cons_self _ _) hfuel
  have hc' : c ∈ (findChildren (buildConnections g.links)
      (2 * g.links.length + 2) rootId ([], [])).2 := hc
  have hcv := DE c hc' (List.not_mem_nil c)
  have hroot2 : rootId ∈ (findChildren (buildConnections g.links)
      (2 * g.links.length + 2) rootId ([], [])).2 := by
    refine CL c hcv (List.not_mem_nil c) rootId ?_
    rw [getAdj_buildConnections]
    rcases hedge with ⟨l, hl, hs, ht⟩
    exact List.mem_map.mpr ⟨l, List.mem_filter.mpr ⟨hl, decide_eq_true hs⟩, ht⟩
  have hrootmem : rootId ∈ findDescendantNodes rootId g := hroot2
  have hne : (findDescendantNodes rootId g).isEmpty = false := by
    cases hdl : findDescendantNodes rootId g with
    | nil => rw [hdl] at hrootmem; cases hrootmem
    | cons a as => rfl
  refine ⟨hrootmem, ?_, ?_⟩
  · intro n hn
    have hn' : n ∈ g.nodes.filter
        (fun n => decide (n.id ∉ findDescendantNodes rootId g)) := by
      simpa [collapseNode, hne] using hn
    rcases List.mem_filter.mp hn' with ⟨-, hpred⟩
    intro heq
    exact (of_decide_eq_true hpred) (heq ▸ hrootmem)
  · intro l hl
    have hl' : l ∈ g.links.filter (fun link =>
        decide (refId link.source ∉ findDescendantNodes rootId g) &&
        decide (refId link.target ∉ findDescendantNodes rootId g)) := by
      simpa [collapseNode, hne] using hl
    rcases List.mem_filter.mp hl' with ⟨-, hpred⟩
    simp only [Bool.and_eq_true, decide_eq_true_eq] at hpred
    exact ⟨fun heq => hpred.1 (heq ▸ hrootmem), fun heq => hpred.2 (heq ▸ hrootmem)⟩

/-- The 2-cycle `R→A→R` used to instantiate C10. -/
def cycleGraph : GraphData :=
  { nodes := [sampleNode "R", sampleNode "A"],
    links := [{ source := .str "R", target := .str "A" },
              { source := .str "A", target := .str "R" }] }

/-- C10 instantiated on the 2-cycle: collapsing `R` deletes `R` itself. -/
theorem c10_root_in_own_descendants_witness :
    ("A" ∈ findDescendantNodes "R" cycleGraph) ∧
    (∃ l ∈ cycleGraph.links, refId l.source = "A" ∧ refId l.target = "R") ∧
    ("R" ∈ findDescendantNodes "R" cycleGraph ∧
     (∀ n ∈ (collapseNode "R" cycleGraph).nodes, n.id ≠ "R") ∧
     (∀ l ∈ (collapseNode "R" cycleGraph).links,
        refId l.source ≠ "R" ∧ refId l.target ≠ "R")) :=
  ⟨by decide, by decide,
    c10_root_in_own_descendants cycleGraph "R" "A" (by decide) (by decide)⟩

/-! ## Result normalizer (`transformNeo4jToGraph`)

Embeds the variant of `transformNeo4jToGraph` whose whole record pass is
wrapped in a `try` that returns the empty view on error, with inner
per-relationship and per-path-segment handlers that swallow their own
errors.  Driver values are modelled as a discriminated union; property
values are modelled as strings (JavaScript truthiness of a string is
non-emptiness).  Exceptions are modelled with `Except`: the one statement
inside the outer `try` that can throw without an inner handler is the
`node.identity.toString()` of the node branch, which a malformed node
(missing identity) from the untrusted source makes throw. -/

/-- A Neo4j node as delivered by the driver; from an untrusted source the
`identity` slot can be absent, which is what makes `identity.toString()`
throw. -/
structure NeoNode where
  identity : Option String
  labels : List String
  props : List (String × String)
  deriving DecidableEq, Repr

/-- A Neo4j relationship (`rel.type`; the empty string is falsy in JS). -/
structure NeoRel where
  relType : String
  deriving DecidableEq, Repr

/-- One path segment (`segment.start` / `segment.end` /
`segment.relationship`, each possibly null). -/
structure NeoSegment where
  segStart : Option NeoNode
  segEnd : Option NeoNode
  relationship : Option NeoRel
  deriving DecidableEq, Repr

/-- A record field value: null, a node, a relationship, a path, or some
non-graph scalar. -/
inductive NeoValue where
  | nul
  | node (n : NeoNode)
  | rel (r : NeoRel)
  | path (segments : List NeoSegment)
  | scalar
  deriving DecidableEq, Repr

/-- A result record: named fields in order. -/
abbrev NeoRecord := List (String × NeoValue)

/-- Property lookup on an entity's properties. -/
def getProp (props : List (String × String)) (k : String) : Option String :=
  (props.find? (fun kv => decide (kv.1 = k))).map (fun kv => kv.2)

/-- JavaScript truthiness of a (string-valued) property. -/
def truthy (o : Option String) : Bool :=
  match o with
  | some s => !s.isEmpty
  | none => false

/-- `.replace(/\|/g, '-')`. -/
def replacePipes (s : String) : String :=
  String.map (fun c => if c = '|' then '-' else c) s

/-- `.replace(/_/g, ' ')`. -/
def underscoresToSpaces (s : String) : String :=
  String.map (fun c => if c = '_' then ' ' else c) s

/-- `.replace(/([A-Z])/g, ' $1')`: a space before each ASCII capital. -/
def spaceCaps (s : String) : String :=
  String.mk (s.data.flatMap (fun c => if c.isUpper then [' ', c] else [c]))

/-- `/^\d+$/.test(s)`. -/
def allDigits (s : String) : Bool :=
  !s.isEmpty && s.data.all Char.isDigit

/-- The type→color table of `transformNeo4jToGraph`. -/
def colorMap : List (String × String) :=
  [("Table", "#1565C0"), ("View", "#1E88E5"), ("Schema", "#0D47A1"),
   ("Database", "#0277BD"),
   ("Column", "#6A1B9A"), ("PrimaryKey", "#8E24AA"), ("ForeignKey", "#9C27B0"),
   ("Index", "#AB47BC"),
   ("DataType", "#00695C"), ("Constraint", "#00897B"), ("Trigger", "#00ACC1"),
   ("Function", "#26C6DA"),
   ("Concept", "#FF6F00"), ("Entity", "#F57C00"), ("Property", "#FF9800"),
   ("Class", "#FFB300"), ("Attribute", "#FFC107"),
   ("Relationship", "#2E7D32"), ("Association", "#388E3C"),
   ("Mapping", "#43A047"), ("Inheritance", "#66BB6A"),
   ("Domain", "#C62828"), ("Subject", "#D32F2F"), ("Area", "#E53935"),
   ("Topic", "#EF5350"),
   ("Root", "#5D4037"), ("Metric", "#7B1FA2"), ("Glossary", "#00BCD4"),
   ("External", "#607D8B"),
   ("Unknown", "#9E9E9E"), ("default", "#757575")]

/-- `colorMap[type] || colorMap.default`. -/
def colorFor (t : String) : String :=
  match (colorMap.find? (fun kv => decide (kv.1 = t))).map (fun kv => kv.2) with
  | some c => c
  | none => "#757575"

/-- The node-branch label derivation: an explicit name-like property
(pipes sanitized), else a non-numeric string `id` property humanized
(underscores→spaces, pipes→dashes, space before capitals, trimmed), else
the first driver label humanized plus a 3-character id fragment, else
`Node ` plus the fragment. -/
def deriveNodeLabel (props : List (String × String)) (labels : List String)
    (nodeId : String) : String :=
  let byName :=
    if truthy (getProp props "name") then
      replacePipes ((getProp props "name").getD "")
    else if truthy (getProp props "title") then
      replacePipes ((getProp props "title").getD "")
    else if truthy (getProp props "label") then
      replacePipes ((getProp props "label").getD "")
    else
      match getProp props "id" with
      | some idStr =>
        if !allDigits idStr then
          (spaceCaps (replacePipes (underscoresToSpaces idStr))).trim
        else ""
      | none => ""
  if byName.isEmpty then
    match labels with
    | l0 :: _ => (replacePipes (spaceCaps l0)).trim ++ " " ++ nodeId.take 3
    | [] => "Node " ++ nodeId.take 3
  else byName

/-- The node-branch type derivation: an explicit `type` property, else
`Category` when that label is present, else the first label, else kept
empty (JS `undefined`). -/
def deriveNodeType (props : List (String × String)) (labels : List String) : String :=
  let t := (getProp props "type").getD ""
  if t.isEmpty then
    match labels with
    | l0 :: _ => if labels.contains "Category" then "Category" else l0
    | [] => ""
  else t

/-- The node record built by the node branch. -/
def buildNode (nodeId : String) (labels : List String)
    (props : List (String × String)) : GraphNode :=
  let t := deriveNodeType props labels
  { id := nodeId,
    label := deriveNodeLabel props labels nodeId,
    type := if t.isEmpty then none else some t,
    color := some (colorFor t),
    description := some ((getProp props "description").getD ""),
    props := props }

/-- Accumulator state: the `nodes` and `links` maps (assoc lists in
insertion order, keyed by node id / direction-agnostic link key). -/
abbrev TransformState := List (String × GraphNode) × List (String × SLink)

/-- `map.has(k) ? map : map.set(k, v)` on an insertion-ordered map. -/
def insertNew {α : Type} (m : List (String × α)) (k : String) (v : α) :
    List (String × α) :=
  if m.any (fun kv => decide (kv.1 = k)) then m else m ++ [(k, v)]

/-- `record.get(key)`: throws when the record has no such field. -/
def recordGet (record : NeoRecord) (k : String) : Except String NeoValue :=
  match record.find? (fun kv => decide (kv.1 = k)) with
  | some kv => Except.ok kv.2
  | none => Except.error "Record.get: no such key"

/-- `value.identity`, defined only for node values. -/
def getIdentity : NeoValue → Option String
  | .node n => n.identity
  | _ => none

/-- The relationship branch (inside its own `try`): look up the `n` and
`m` fields of the record, and when both are nodes with identities, insert
the link under its direction-agnostic key unless the key is taken.  A
missing field throws — to the inner handler. -/
def relBranchBody (record : NeoRecord) (r : NeoRel) (st : TransformState) :
    Except String TransformState := do
  let sv ← recordGet record "n"
  let tv ← recordGet record "m"
  match getIdentity sv, getIdentity tv with
  | some startId, some endId =>
    let lbl := if r.relType.isEmpty then "RELATED_TO" else r.relType
    let key := linkKey ⟨startId, endId, lbl⟩
    pure (st.1, insertNew st.2 key
      { source := startId, target := endId, label := some (replacePipes lbl) })
  | _, _ => pure st

/-- One path segment: skip when any slot or identity is missing,
otherwise insert both endpoint nodes (simpler label rule: name, title or
`Node ` plus the full id; type rule: `type` property, first label, or
`Unknown`) and the segment's link under its key (raw relationship type,
no `RELATED_TO` default).  Errors here would be swallowed by the
per-segment handler; the modelled body is total. -/
def segmentStep (st : TransformState) (seg : NeoSegment) : TransformState :=
  match seg.segStart, seg.segEnd, seg.relationship with
  | some startNode, some endNode, some r =>
    match startNode.identity, endNode.identity with
    | some startId, some endId =>
      let pathNode := fun (nid : String) (nn : NeoNode) =>
        let t0 := (getProp nn.props "type").getD ""
        let t := if t0.isEmpty then
            (match nn.labels with | l0 :: _ => l0 | [] => "Unknown")
          else t0
        ({ id := nid,
           label := if truthy (getProp nn.props "name") then
               (getProp nn.props "name").getD ""
             else if truthy (getProp nn.props "title") then
               (getProp nn.props "title").getD ""
             else "Node " ++ nid,
           type := if t.isEmpty then none else some t,
           color := some (colorFor t),
           description := some ((getProp nn.props "description").getD ""),
           props := nn.props } : GraphNode)
      let ns1 := insertNew st.1 startId (pathNode startId startNode)
      let ns2 := insertNew ns1 endId (pathNode endId endNode)
      let key := linkKey ⟨startId, endId, r.relType⟩
      (ns2, insertNew st.2 key
        { source := startId, target := endId,
          label := some (replacePipes r.relType) })
    | _, _ => st
  | _, _, _ => st

/-- Process one record field.  Null and non-graph values are skipped; a
node value with a missing identity throws (`identity.toString()` on null)
— no inner handler catches this, so it reaches the outer `try`; the
relationship branch runs under an inner handler that swallows its errors;
the path branch folds its segments. -/
def processField (record : NeoRecord) (st : TransformState)
    (kv : String × NeoValue) : Except String TransformState :=
  match kv.2 with
  | .nul => pure st
  | .scalar => pure st
  | .node n =>
    match n.identity with
    | none => Except.error "TypeError: Cannot read properties of null"
    | some nodeId =>
      pure (insertNew st.1 nodeId (buildNode nodeId n.labels n.props), st.2)
  | .rel r =>
    match relBranchBody record r st with
    | .ok st' => pure st'
    | .error _ => pure st
  | .path segments => pure (segments.foldl segmentStep st)

/-- The whole record pass of `transformNeo4jToGraph`, as the computation
running inside the outer `try`. -/
def transformBody (records : List NeoRecord) : Except String TransformState :=
  records.foldlM (fun st record => record.foldlM (processField record) st)
    ([], [])

/-- `transformNeo4jToGraph`: run the pass; on success read the node and
link maps back in insertion order, on any uncaught error return the empty
view (the outer `catch`). -/
def transformNeo4jToGraph (records : List NeoRecord) : QPGraphData :=
  match transformBody records with
  | .ok st => { nodes := st.1.map (fun kv => kv.2), links := st.2.map (fun kv => kv.2) }
  | .error _ => { nodes := [], links := [] }

/-- C9 (confirmed): the normalizer fails soft.  For every record sequence
it returns a view (it is a total function of its input): when the pass
inside the outer `try` raises an unrecoverable structural error the
result is the empty view rather than a propagated exception, and
otherwise the result is exactly the accumulated node/link maps. -/
theorem c9_transform_fail_soft (records : List NeoRecord) :
    (∀ e, transformBody records = Except.error e →
      transformNeo4jToGraph records = { nodes := [], links := [] }) ∧
    (∀ st, transformBody records = Except.ok st →
      transformNeo4jToGraph records =
        { nodes := st.1.map (fun kv => kv.2),
          links := st.2.map (fun kv => kv.2) }) := by
  constructor
  · intro e he
    simp [transformNeo4jToGraph, he]
  · intro st h
    simp [transformNeo4jToGraph, h]

/-- A record whose `n` field is a node with no identity: the node branch
throws, nothing catches it before the outer handler. -/
def malformedRecords : List NeoRecord :=
  [[("n", NeoValue.node { identity := none, labels := ["Table"], props := [] })]]

/-- C9 instantiated: the malformed record makes the pass error and the
normalizer returns the empty view; a well-formed record passes through. -/
theorem c9_transform_fail_soft_witness :
    (transformBody malformedRecords =
      Except.error "TypeError: Cannot read properties of null") ∧
    transformNeo4jToGraph malformedRecords = { nodes := [], links := [] } :=
  ⟨rfl, (c9_transform_fail_soft malformedRecords).1
    "TypeError: Cannot read properties of null" rfl⟩

end GraphViz
